import Mathlib

/-!
Verification of `scripts/generate_app_icon.py` (GymTrack Pro app icon generator).

The Python script is embedded shallowly:

* Python `int` triples (RGB colors) become `ℤ × ℤ × ℤ`.
* Python float arithmetic is idealized as exact rational / real arithmetic
  (`ℚ` for the drawing code, `ℝ` where square roots occur).  Python's `int()`
  conversion truncates toward zero; it is embedded as `pyInt`.
* A PIL image is embedded as a total pixel function `ℤ × ℤ → Color`; drawing
  commands (`ImageDraw.rectangle` / `ImageDraw.ellipse`, both with inclusive
  bounding boxes, the ellipse rasterization modelled as the closed inscribed
  ellipse) become an explicit command list applied left to right
  (painter's algorithm, later commands overwrite earlier ones).
* Python's `ZeroDivisionError` (raised by `create_radial_gradient` when
  `size // 2 = 0` while the pixel loop runs, i.e. `size = 1`) is embedded by
  returning `Option`.
-/

/-- An RGB color: the Python code uses plain `int` 3-tuples. -/
abbrev Color := ℤ × ℤ × ℤ

/-- Python's `int()` applied to an exact numeric value: truncation toward
zero (floor for non-negative values, ceiling for negative ones). -/
def pyInt (q : ℚ) : ℤ := if 0 ≤ q then ⌊q⌋ else ⌈q⌉

/-- A color whose channels are 8-bit, as in the `COLORS` palette
(data-model invariant of the spec: each channel in `[0, 255]`). -/
def validColor (c : Color) : Prop :=
  0 ≤ c.1 ∧ c.1 ≤ 255 ∧ 0 ≤ c.2.1 ∧ c.2.1 ≤ 255 ∧ 0 ≤ c.2.2 ∧ c.2.2 ≤ 255

instance (c : Color) : Decidable (validColor c) := by
  unfold validColor; infer_instance

/-- `COLORS['background']` (#0F172A). -/
def COLORS_background : Color := (15, 23, 42)

/-- `COLORS['card']` (#1E293B). -/
def COLORS_card : Color := (30, 41, 59)

/-- `COLORS['primary']` (#6366F1). -/
def COLORS_primary : Color := (99, 102, 241)

/-- `COLORS['primary_light']` (#818CF8). -/
def COLORS_primary_light : Color := (129, 140, 248)

/-- `COLORS['accent']` (#22D3EE). -/
def COLORS_accent : Color := (34, 211, 238)

/-- `COLORS['white']` (#F8FAFC). -/
def COLORS_white : Color := (248, 250, 252)

/-- `SIZE = 1024`. -/
def SIZE : ℕ := 1024

/-- `CENTER = SIZE // 2`. -/
def CENTER : ℕ := SIZE / 2

/-- `interpolate_color(color1, color2, ratio)`:
`tuple(int(color1[i] + (color2[i] - color1[i]) * ratio) for i in range(3))`. -/
def interpolate_color (color1 color2 : Color) (ratio : ℚ) : Color :=
  (pyInt ((color1.1 : ℚ) + ((color2.1 : ℚ) - (color1.1 : ℚ)) * ratio),
   pyInt ((color1.2.1 : ℚ) + ((color2.2.1 : ℚ) - (color1.2.1 : ℚ)) * ratio),
   pyInt ((color1.2.2 : ℚ) + ((color2.2.2 : ℚ) - (color1.2.2 : ℚ)) * ratio))

/-! ### Basic facts about `pyInt` -/

theorem pyInt_eq_floor {q : ℚ} (h : 0 ≤ q) : pyInt q = ⌊q⌋ := by
  simp [pyInt, h]

theorem pyInt_intCast (z : ℤ) : pyInt (z : ℚ) = z := by
  rcases le_or_lt 0 (z : ℚ) with h | h
  · simp [pyInt, h]
  · simp [pyInt, not_le.mpr h, Int.ceil_intCast]

/-- One channel of `interpolate_color` lies between the two endpoint
channels, provided the endpoints are non-negative (so that `int()` is a
floor) and the ratio lies in `[0, 1]`. -/
theorem pyInt_channel_between (a b : ℤ) (r : ℚ) (ha : 0 ≤ a) (hb : 0 ≤ b)
    (h0 : 0 ≤ r) (h1 : r ≤ 1) :
    min a b ≤ pyInt ((a : ℚ) + ((b : ℚ) - a) * r) ∧
      pyInt ((a : ℚ) + ((b : ℚ) - a) * r) ≤ max a b := by
  set v : ℚ := (a : ℚ) + ((b : ℚ) - a) * r with hv
  have hlo : (min a b : ℚ) ≤ v := by
    rcases le_total (a : ℚ) (b : ℚ) with hab | hab
    · have : (min a b : ℚ) = (a : ℚ) := by
        norm_cast
        exact min_eq_left (by exact_mod_cast hab)
      rw [this, hv]
      nlinarith
    · have : (min a b : ℚ) = (b : ℚ) := by
        norm_cast
        exact min_eq_right (by exact_mod_cast hab)
      rw [this, hv]
      nlinarith
  have hhi : v ≤ (max a b : ℚ) := by
    rcases le_total (a : ℚ) (b : ℚ) with hab | hab
    · have : (max a b : ℚ) = (b : ℚ) := by
        norm_cast
        exact max_eq_right (by exact_mod_cast hab)
      rw [this, hv]
      nlinarith
    · have : (max a b : ℚ) = (a : ℚ) := by
        norm_cast
        exact max_eq_left (by exact_mod_cast hab)
      rw [this, hv]
      nlinarith
  have hv0 : 0 ≤ v := le_trans (by exact_mod_cast le_min ha hb) hlo
  rw [pyInt_eq_floor hv0]
  constructor
  · refine Int.le_floor.mpr ?_
    calc ((min a b : ℤ) : ℚ) = min (a : ℚ) (b : ℚ) := by push_cast; rfl
      _ ≤ v := hlo
  · have h2 : ⌊v⌋ ≤ ⌊max (a : ℚ) (b : ℚ)⌋ := Int.floor_le_floor hhi
    have h3 : max (a : ℚ) (b : ℚ) = ((max a b : ℤ) : ℚ) := by push_cast; rfl
    rw [h3, Int.floor_intCast] at h2
    exact h2

/-! ### The radial gradient (`create_radial_gradient`)

The Python loop body is, per pixel `(x, y)` with `h = size // 2`:

```
dist  = math.sqrt((x - h)**2 + (y - h)**2)
ratio = min(dist / (math.sqrt(2) * h), 1.0)
chan  = int(c0 + (c1 - c0) * ratio)
```

For `size = 1` the divisor `math.sqrt(2) * h` is `0.0` and Python raises
`ZeroDivisionError` at the very first pixel, hence the `Option` below.
`gradChannel` is the exact closed form of the per-channel computation for
non-negative channel values (all palette colors), using the integer square
root; the bridging theorem `gradChannel_eq_floor` below proves it equal to
the literal floor formula over `ℝ`. -/

/-- Ceiling integer square root: the least `k` with `n ≤ k * k`. -/
def ceilSqrt (n : ℕ) : ℕ :=
  if Nat.sqrt n * Nat.sqrt n = n then Nat.sqrt n else Nat.sqrt n + 1

/-- Exact value of `int(c0 + (c1 - c0) * min(sqrt(d2) / (sqrt(2) * h), 1.0))`
for `0 ≤ c0`, `0 ≤ c1` and `0 < h`, where `d2` is the squared distance of the
pixel from the center. -/
def gradChannel (h : ℕ) (c0 c1 : ℤ) (d2 : ℕ) : ℤ :=
  if 2 * (h * h) ≤ d2 then c1
  else if c0 ≤ c1 then
    c0 + (Nat.sqrt ((c1 - c0).toNat ^ 2 * (2 * d2)) / (2 * h) : ℕ)
  else
    c0 - ((ceilSqrt ((c0 - c1).toNat ^ 2 * (2 * d2)) + (2 * h - 1)) / (2 * h) : ℕ)

/-- A square raster image: its side length and its pixel function. -/
structure PImage where
  size : ℕ
  pix : ℤ × ℤ → Color

/-- `create_radial_gradient(size, center_color, edge_color)`.  Returns
`none` for `size = 1`, where the Python code raises `ZeroDivisionError`
(`max_dist = math.sqrt(2) * (1 // 2) = 0.0` and the first pixel computes
`0.0 / 0.0`). -/
def create_radial_gradient (size : ℕ) (center_color edge_color : Color) :
    Option PImage :=
  if size = 1 then none
  else
    some ⟨size, fun p =>
      let h : ℤ := (size / 2 : ℕ)
      let d2 : ℕ := ((p.1 - h) ^ 2 + (p.2 - h) ^ 2).toNat
      (gradChannel (size / 2) center_color.1 edge_color.1 d2,
       gradChannel (size / 2) center_color.2.1 edge_color.2.1 d2,
       gradChannel (size / 2) center_color.2.2 edge_color.2.2 d2)⟩

/-! ### Bridging lemmas: integer square roots versus `Real.sqrt` -/

theorem ceilSqrt_eq_natCeil (n : ℕ) : ⌈Real.sqrt n⌉₊ = ceilSqrt n := by
  unfold ceilSqrt
  split
  · next hexact =>
    have : Real.sqrt n = Nat.sqrt n := by
      conv_lhs => rw [← hexact]
      push_cast
      exact Real.sqrt_mul_self (by positivity)
    rw [this, Nat.ceil_natCast]
  · next hne =>
    apply le_antisymm
    · refine Nat.ceil_le.mpr ?_
      have hnat : n < (Nat.sqrt n + 1) * (Nat.sqrt n + 1) := Nat.lt_succ_sqrt n
      have h1 : (n : ℝ) ≤ ((Nat.sqrt n + 1 : ℕ) : ℝ) ^ 2 := by
        have hcast : (n : ℝ) < ((Nat.sqrt n + 1 : ℕ) : ℝ) * ((Nat.sqrt n + 1 : ℕ) : ℝ) := by
          exact_mod_cast hnat
        nlinarith [hcast]
      calc Real.sqrt n ≤ Real.sqrt (((Nat.sqrt n + 1 : ℕ) : ℝ) ^ 2) :=
            Real.sqrt_le_sqrt h1
        _ = ((Nat.sqrt n + 1 : ℕ) : ℝ) := Real.sqrt_sq (by positivity)
    · refine Nat.add_one_le_ceil_iff.mpr ?_
      have h2 : (Nat.sqrt n) * (Nat.sqrt n) < n :=
        lt_of_le_of_ne (Nat.sqrt_le n) hne
      have h3 : ((Nat.sqrt n : ℕ) : ℝ) ^ 2 < (n : ℝ) := by
        have hcast : ((Nat.sqrt n : ℕ) : ℝ) * ((Nat.sqrt n : ℕ) : ℝ) < (n : ℝ) := by
          exact_mod_cast h2
        nlinarith [hcast]
      exact Real.lt_sqrt_of_sq_lt h3

/-- Division of a non-negative real by a positive natural, rounded up:
`⌈x / d⌉ = ⌈(⌈x⌉ + d - 1) / d⌉` in natural numbers. -/
theorem natCeil_div (x : ℝ) (_hx : 0 ≤ x) (d : ℕ) (hd : 0 < d) :
    ⌈x / d⌉₊ = (⌈x⌉₊ + d - 1) / d := by
  have hdR : (0 : ℝ) < d := by exact_mod_cast hd
  have hmod := Nat.div_add_mod (⌈x⌉₊ + d - 1) d
  have hlt : (⌈x⌉₊ + d - 1) % d < d := Nat.mod_lt _ hd
  apply le_antisymm
  · refine Nat.ceil_le.mpr ?_
    have h1 : ⌈x⌉₊ ≤ d * ((⌈x⌉₊ + d - 1) / d) := by omega
    rw [div_le_iff₀ hdR]
    calc x ≤ (⌈x⌉₊ : ℝ) := Nat.le_ceil x
      _ ≤ ((d * ((⌈x⌉₊ + d - 1) / d) : ℕ) : ℝ) := by exact_mod_cast h1
      _ = (((⌈x⌉₊ + d - 1) / d : ℕ) : ℝ) * (d : ℝ) := by push_cast; ring
  · rcases Nat.eq_zero_or_pos ((⌈x⌉₊ + d - 1) / d) with h0 | hq0
    · rw [h0]; exact Nat.zero_le _
    · have hcpos : 0 < ⌈x⌉₊ := by
        by_contra hc
        have hc0 : ⌈x⌉₊ = 0 := by omega
        rw [hc0] at hq0
        have hz : (0 + d - 1) / d = 0 := Nat.div_eq_of_lt (by omega)
        omega
      have hqd : d * ((⌈x⌉₊ + d - 1) / d) ≤ ⌈x⌉₊ + d - 1 := by omega
      have hsplit : d * ((⌈x⌉₊ + d - 1) / d) =
          d * ((⌈x⌉₊ + d - 1) / d - 1) + d := by
        conv_lhs =>
          rw [show (⌈x⌉₊ + d - 1) / d = ((⌈x⌉₊ + d - 1) / d - 1) + 1 from by omega]
        rw [Nat.mul_add, Nat.mul_one]
      have hband : d * ((⌈x⌉₊ + d - 1) / d - 1) ≤ ⌈x⌉₊ - 1 := by omega
      have hclt : ((⌈x⌉₊ : ℝ) - 1) < x := by
        have h1 : (⌈x⌉₊ - 1 : ℕ) < ⌈x⌉₊ := by omega
        have h2 := Nat.lt_ceil.mp h1
        rwa [Nat.cast_sub hcpos, Nat.cast_one] at h2
      have hfin : (((⌈x⌉₊ + d - 1) / d - 1 : ℕ) : ℝ) < x / d := by
        rw [lt_div_iff₀ hdR]
        have hcast : ((d * ((⌈x⌉₊ + d - 1) / d - 1) : ℕ) : ℝ) ≤ ((⌈x⌉₊ - 1 : ℕ) : ℝ) := by
          exact_mod_cast hband
        rw [Nat.cast_mul, Nat.cast_sub hcpos, Nat.cast_one] at hcast
        nlinarith [hclt, hcast]
      have := Nat.lt_ceil.mpr hfin
      omega

/-- Rewriting the gradient ratio: `sqrt(d2) / (sqrt(2) * h) = sqrt(2 * d2) / (2 * h)`. -/
theorem ratio_rewrite (d2 : ℕ) (hR : ℝ) (hpos : 0 < hR) :
    Real.sqrt d2 / (Real.sqrt 2 * hR) = Real.sqrt (2 * d2 : ℕ) / (2 * hR) := by
  have h2 : Real.sqrt 2 * Real.sqrt 2 = 2 := Real.mul_self_sqrt (by norm_num)
  have hs2 : (0 : ℝ) < Real.sqrt 2 := Real.sqrt_pos.mpr (by norm_num)
  have hsplit : Real.sqrt (2 * d2 : ℕ) = Real.sqrt 2 * Real.sqrt d2 := by
    push_cast
    exact Real.sqrt_mul (by norm_num) _
  rw [hsplit, div_eq_div_iff (by positivity) (by positivity)]
  linear_combination (-(Real.sqrt d2 * hR)) * h2

/-- The closed form `gradChannel` computes the floor of the exact real value
`c0 + (c1 - c0) * min(sqrt(d2) / (sqrt(2) * h), 1)` — i.e. exactly what
`int(center_color[i] + (edge_color[i] - center_color[i]) * ratio)` computes
in `create_radial_gradient` (the value is non-negative for non-negative
channels, so Python's `int` truncation is a floor). -/
theorem gradChannel_eq_floor (h : ℕ) (c0 c1 : ℤ) (d2 : ℕ) (hh : 0 < h) :
    gradChannel h c0 c1 d2 =
      ⌊(c0 : ℝ) + ((c1 : ℝ) - (c0 : ℝ)) *
        min (Real.sqrt d2 / (Real.sqrt 2 * h)) 1⌋ := by
  have hhR : (0 : ℝ) < (h : ℝ) := by exact_mod_cast hh
  have hs2 : (0 : ℝ) < Real.sqrt 2 := Real.sqrt_pos.mpr (by norm_num)
  have hden : (0 : ℝ) < Real.sqrt 2 * h := by positivity
  unfold gradChannel
  split
  · next hfar =>
    -- the pixel is at or beyond the corner distance: the ratio clamps to 1
    have hcast : ((2 * (h * h) : ℕ) : ℝ) ≤ (d2 : ℝ) := by exact_mod_cast hfar
    have hsq : Real.sqrt (2 * (h * h) : ℕ) = Real.sqrt 2 * h := by
      push_cast
      rw [Real.sqrt_mul (by norm_num), Real.sqrt_mul_self hhR.le]
    have hle : Real.sqrt 2 * h ≤ Real.sqrt d2 := by
      rw [← hsq]
      exact Real.sqrt_le_sqrt hcast
    have hmin : min (Real.sqrt d2 / (Real.sqrt 2 * h)) 1 = 1 :=
      min_eq_right ((one_le_div hden).mpr hle)
    rw [hmin]
    rw [show (c0 : ℝ) + ((c1 : ℝ) - c0) * 1 = (c1 : ℝ) by ring, Int.floor_intCast]
  · next hnear =>
    have hlt : (d2 : ℝ) < ((2 * (h * h) : ℕ) : ℝ) := by
      exact_mod_cast (by omega : d2 < 2 * (h * h))
    have hsq : Real.sqrt (2 * (h * h) : ℕ) = Real.sqrt 2 * h := by
      push_cast
      rw [Real.sqrt_mul (by norm_num), Real.sqrt_mul_self hhR.le]
    have hlt2 : Real.sqrt d2 < Real.sqrt 2 * h := by
      rw [← hsq]
      exact (Real.sqrt_lt_sqrt (by positivity) hlt)
    have hmin : min (Real.sqrt d2 / (Real.sqrt 2 * h)) 1 =
        Real.sqrt d2 / (Real.sqrt 2 * h) :=
      min_eq_left (le_of_lt ((div_lt_one hden).mpr hlt2))
    rw [hmin, ratio_rewrite d2 (h : ℝ) hhR]
    split
    · next hle01 =>
      -- c0 ≤ c1: the increment is non-negative
      have hΔ : (0 : ℤ) ≤ c1 - c0 := by omega
      have hΔR : ((c1 - c0).toNat : ℝ) = (c1 : ℝ) - c0 := by
        have := Int.toNat_of_nonneg hΔ
        exact_mod_cast congrArg (fun z : ℤ => (z : ℝ)) this
      have hN : Real.sqrt ((c1 - c0).toNat ^ 2 * (2 * d2) : ℕ) =
          ((c1 - c0).toNat : ℝ) * Real.sqrt (2 * d2 : ℕ) := by
        push_cast
        rw [Real.sqrt_mul (by positivity), Real.sqrt_sq (by positivity)]
      have harg : (c0 : ℝ) + ((c1 : ℝ) - c0) * (Real.sqrt (2 * d2 : ℕ) / (2 * h)) =
          (c0 : ℝ) + Real.sqrt ((c1 - c0).toNat ^ 2 * (2 * d2) : ℕ) / (2 * h) := by
        rw [hN, ← hΔR]
        ring
      rw [harg, Int.floor_int_add]
      congr 1
      have hnn : (0 : ℝ) ≤ Real.sqrt ((c1 - c0).toNat ^ 2 * (2 * d2) : ℕ) / (2 * h) := by
        positivity
      rw [← Int.natCast_floor_eq_floor hnn]
      congr 1
      have hdcast : ((2 * h : ℕ) : ℝ) = 2 * (h : ℝ) := by push_cast; ring
      rw [← hdcast, Nat.floor_div_nat, Real.nat_floor_real_sqrt_eq_nat_sqrt]
    · next hgt01 =>
      -- c1 < c0: the increment is negative, int() still floors (value ≥ c1 ≥ 0)
      have hΔ : (0 : ℤ) ≤ c0 - c1 := by omega
      have hΔR : ((c0 - c1).toNat : ℝ) = (c0 : ℝ) - c1 := by
        have := Int.toNat_of_nonneg hΔ
        exact_mod_cast congrArg (fun z : ℤ => (z : ℝ)) this
      have hN : Real.sqrt ((c0 - c1).toNat ^ 2 * (2 * d2) : ℕ) =
          ((c0 - c1).toNat : ℝ) * Real.sqrt (2 * d2 : ℕ) := by
        push_cast
        rw [Real.sqrt_mul (by positivity), Real.sqrt_sq (by positivity)]
      have harg : (c0 : ℝ) + ((c1 : ℝ) - c0) * (Real.sqrt (2 * d2 : ℕ) / (2 * h)) =
          (c0 : ℝ) + -(Real.sqrt ((c0 - c1).toNat ^ 2 * (2 * d2) : ℕ) / (2 * h)) := by
        rw [hN, hΔR]
        ring
      rw [harg, Int.floor_int_add, Int.floor_neg]
      have hnn : (0 : ℝ) ≤ Real.sqrt ((c0 - c1).toNat ^ 2 * (2 * d2) : ℕ) / (2 * h) := by
        positivity
      rw [← Int.natCast_ceil_eq_ceil hnn]
      have hdcast : ((2 * h : ℕ) : ℝ) = 2 * (h : ℝ) := by push_cast; ring
      rw [show Real.sqrt ((c0 - c1).toNat ^ 2 * (2 * d2) : ℕ) / (2 * (h : ℝ)) =
            Real.sqrt ((c0 - c1).toNat ^ 2 * (2 * d2) : ℕ) / ((2 * h : ℕ) : ℝ) from by
          rw [hdcast],
        natCeil_div _ (Real.sqrt_nonneg _) _ (by omega), ceilSqrt_eq_natCeil]
      have hnum : ceilSqrt ((c0 - c1).toNat ^ 2 * (2 * d2)) + (2 * h - 1)
          = ceilSqrt ((c0 - c1).toNat ^ 2 * (2 * d2)) + 2 * h - 1 := by omega
      rw [hnum]
      push_cast
      ring

/-! ### Drawing primitives (`ImageDraw`)

A PIL image is embedded as a total pixel function; each `draw.rectangle` /
`draw.ellipse` call becomes a command.  PIL bounding boxes include both
corner coordinates; the ellipse rasterization is modelled as the closed
inscribed ellipse of its bounding box.  Commands are applied left to right,
later commands overwriting earlier ones (painter's algorithm, no
blending). -/

/-- The pixel grid of an image. -/
abbrev Image := ℤ × ℤ → Color

/-- One drawing call.  Coordinates are `ℚ` because the bar segments use
Python float division (`bar_width / bar_segments`). -/
inductive DrawCmd where
  | rect : ℚ → ℚ → ℚ → ℚ → Color → DrawCmd
  | ellipse : ℚ → ℚ → ℚ → ℚ → Color → DrawCmd
  deriving DecidableEq

/-- Whether a drawing command paints the given pixel. -/
def covers : DrawCmd → ℤ × ℤ → Prop
  | .rect x0 y0 x1 y1 _, p =>
      x0 ≤ (p.1 : ℚ) ∧ (p.1 : ℚ) ≤ x1 ∧ y0 ≤ (p.2 : ℚ) ∧ (p.2 : ℚ) ≤ y1
  | .ellipse x0 y0 x1 y1 _, p =>
      (((y1 - y0) / 2) * ((p.1 : ℚ) - (x0 + x1) / 2)) ^ 2 +
          (((x1 - x0) / 2) * ((p.2 : ℚ) - (y0 + y1) / 2)) ^ 2 ≤
        (((x1 - x0) / 2) * ((y1 - y0) / 2)) ^ 2

instance covers_decidable (c : DrawCmd) (p : ℤ × ℤ) : Decidable (covers c p) :=
  match c with
  | .rect _ _ _ _ _ => inferInstanceAs (Decidable (_ ∧ _ ∧ _ ∧ _))
  | .ellipse _ _ _ _ _ => inferInstanceAs (Decidable (_ ≤ _))

/-- The fill color of a drawing command. -/
def fillOf : DrawCmd → Color
  | .rect _ _ _ _ f => f
  | .ellipse _ _ _ _ f => f

/-- Painting one command over an image. -/
def applyCmd (c : DrawCmd) (img : Image) : Image :=
  fun p => if covers c p then fillOf c else img p

/-- Painting a list of commands in order. -/
def applyCmds (cs : List DrawCmd) (img : Image) : Image :=
  cs.foldl (fun i c => applyCmd c i) img

/-- `draw_rounded_rect(draw, bbox, radius, fill)`: two overlapping
rectangles plus four corner circles, in source order. -/
def draw_rounded_rect (x1 y1 x2 y2 radius : ℚ) (fill : Color) : List DrawCmd :=
  [DrawCmd.rect (x1 + radius) y1 (x2 - radius) y2 fill,
   DrawCmd.rect x1 (y1 + radius) x2 (y2 - radius) fill,
   DrawCmd.ellipse x1 y1 (x1 + 2 * radius) (y1 + 2 * radius) fill,
   DrawCmd.ellipse (x2 - 2 * radius) y1 x2 (y1 + 2 * radius) fill,
   DrawCmd.ellipse x1 (y2 - 2 * radius) (x1 + 2 * radius) y2 fill,
   DrawCmd.ellipse (x2 - 2 * radius) (y2 - 2 * radius) x2 y2 fill]

/-- The full draw-call trace of `draw_dumbbell(img, primary_color,
accent_color)`, with the layout computed exactly as in the source
(`//` on even values; the bar uses float division `bar_width /
bar_segments = 20.0` and ratio `i / (bar_segments - 1)`). -/
def dumbbellCmds (primary_color accent_color : Color) : List DrawCmd :=
  let bar_height : ℤ := 60
  let bar_width : ℤ := 400
  let weight_width : ℤ := 120
  let weight_height : ℤ := 280
  let weight_radius : ℤ := 30
  let cx : ℤ := (CENTER : ℕ)
  let cy : ℤ := (CENTER : ℕ)
  let bar_left : ℤ := cx - bar_width / 2
  let bar_top : ℤ := cy - bar_height / 2
  let left_weight_left : ℤ := bar_left - 20
  let left_weight_right : ℤ := left_weight_left + weight_width
  let weight_top : ℤ := cy - weight_height / 2
  let weight_bottom : ℤ := cy + weight_height / 2
  let right_weight_right : ℤ := cx + bar_width / 2 + 20
  let right_weight_left : ℤ := right_weight_right - weight_width
  let inner_margin : ℤ := 20
  let bar_segments : ℕ := 20
  let segment_width : ℚ := (bar_width : ℚ) / (bar_segments : ℚ)
  draw_rounded_rect (left_weight_left : ℚ) (weight_top : ℚ)
      (left_weight_right : ℚ) (weight_bottom : ℚ) (weight_radius : ℚ)
      primary_color
    ++ draw_rounded_rect ((left_weight_left + inner_margin : ℤ) : ℚ)
      ((weight_top + inner_margin : ℤ) : ℚ)
      ((left_weight_right - inner_margin : ℤ) : ℚ)
      ((weight_bottom - inner_margin : ℤ) : ℚ)
      ((weight_radius - 10 : ℤ) : ℚ)
      (interpolate_color primary_color COLORS_primary_light (0.3 : ℚ))
    ++ (List.range bar_segments).map (fun i : ℕ =>
        DrawCmd.rect ((bar_left : ℚ) + (i : ℚ) * segment_width) (bar_top : ℚ)
          ((bar_left : ℚ) + ((i : ℚ) + 1) * segment_width + 1)
          ((bar_top : ℚ) + (bar_height : ℚ))
          (interpolate_color primary_color accent_color
            ((i : ℚ) / ((bar_segments : ℚ) - 1))))
    ++ draw_rounded_rect (right_weight_left : ℚ) (weight_top : ℚ)
      (right_weight_right : ℚ) (weight_bottom : ℚ) (weight_radius : ℚ)
      accent_color
    ++ draw_rounded_rect ((right_weight_left + inner_margin : ℤ) : ℚ)
      ((weight_top + inner_margin : ℤ) : ℚ)
      ((right_weight_right - inner_margin : ℤ) : ℚ)
      ((weight_bottom - inner_margin : ℤ) : ℚ)
      ((weight_radius - 10 : ℤ) : ℚ)
      (interpolate_color accent_color COLORS_white (0.2 : ℚ))

/-- `draw_dumbbell(img, primary_color, accent_color)`: mutates the image in
place (and returns the same object); embedded as the image transformer. -/
def draw_dumbbell (img : Image) (primary_color accent_color : Color) : Image :=
  applyCmds (dumbbellCmds primary_color accent_color) img

/-! ### Variant generators and `main` -/

/-- `generate_main_icon()`. -/
def generate_main_icon : Option PImage :=
  (create_radial_gradient SIZE COLORS_card COLORS_background).map
    (fun img => ⟨img.size, draw_dumbbell img.pix COLORS_primary COLORS_accent⟩)

/-- `generate_dark_icon()` (hard-coded darker gradient pair). -/
def generate_dark_icon : Option PImage :=
  (create_radial_gradient SIZE (20, 30, 50) (10, 15, 30)).map
    (fun img => ⟨img.size, draw_dumbbell img.pix COLORS_primary_light COLORS_accent⟩)

/-- `generate_tinted_icon()` (grayscale gradient, gray dumbbell colors). -/
def generate_tinted_icon : Option PImage :=
  (create_radial_gradient SIZE (60, 60, 60) (30, 30, 30)).map
    (fun img => ⟨img.size, draw_dumbbell img.pix (180, 180, 180) (220, 220, 220)⟩)

/-- Observable filesystem/console steps of `main()`. -/
inductive Event where
  | makedirs : Event
  | generate : String → Event
  | save : String → Event
  deriving DecidableEq

/-- The generation/save schedule of `main()`, in source order. -/
def mainFiles : List (String × Option PImage) :=
  [("AppIcon.png", generate_main_icon),
   ("AppIcon-Dark.png", generate_dark_icon),
   ("AppIcon-Tinted.png", generate_tinted_icon)]

/-- Sequentially generate and save each file.  `ok` tells whether the
filesystem accepts a given save; a refused save raises, which aborts the
remaining work with the error propagating uncaught (no cleanup), leaving
the files already written untouched. -/
def saveLoop (ok : String → Bool) :
    List (String × Option PImage) →
      List Event × List (String × Option PImage) × Option String
  | [] => ([], [], none)
  | (n, img) :: rest =>
    if ok n then
      (Event.generate n :: Event.save n :: (saveLoop ok rest).1,
       (n, img) :: (saveLoop ok rest).2.1,
       (saveLoop ok rest).2.2)
    else ([Event.generate n, Event.save n], [], some n)

/-- `main()`: ensure the output directory exists, then generate and save
the three variants in order.  Returns the event trace, the files written
(in order), and the filename whose save failed, if any. -/
def main_run (ok : String → Bool) :
    List Event × List (String × Option PImage) × Option String :=
  (Event.makedirs :: (saveLoop ok mainFiles).1,
   (saveLoop ok mainFiles).2.1,
   (saveLoop ok mainFiles).2.2)

/-- Everything a rerun of the process could vary: the program reads no
clock, no randomness, no input.  Nothing in the script consults it. -/
structure World where
  time : ℕ
  randomSeed : ℕ

/-- The pixel data the program produces, as a function of the run
environment: the script's output depends on none of it. -/
def programOutputs (_w : World) : List (String × Option PImage) :=
  mainFiles

/-! ### Helper lemmas about painting -/

theorem applyCmds_cons (c : DrawCmd) (cs : List DrawCmd) (img : Image) :
    applyCmds (c :: cs) img = applyCmds cs (applyCmd c img) := rfl

theorem applyCmds_append (l1 l2 : List DrawCmd) (img : Image) :
    applyCmds (l1 ++ l2) img = applyCmds l2 (applyCmds l1 img) := by
  unfold applyCmds
  exact List.foldl_append _ _ _ _

/-- A pixel painted by no command of the list keeps its old color. -/
theorem applyCmds_not_covered {cs : List DrawCmd} {p : ℤ × ℤ}
    (h : ∀ c ∈ cs, ¬ covers c p) (img : Image) :
    applyCmds cs img p = img p := by
  induction cs generalizing img with
  | nil => rfl
  | cons c cs ih =>
    rw [applyCmds_cons, ih (fun d hd => h d (List.mem_cons_of_mem c hd))]
    simp [applyCmd, h c (List.mem_cons_self c cs)]

/-- A pixel painted by at least one command of a list whose commands all
share the same fill color ends up with that fill color. -/
theorem applyCmds_covered_fill {cs : List DrawCmd} {p : ℤ × ℤ} {f : Color}
    (hfill : ∀ c ∈ cs, fillOf c = f) (hcov : ∃ c ∈ cs, covers c p)
    (img : Image) : applyCmds cs img p = f := by
  induction cs generalizing img with
  | nil => exact absurd hcov (by simp)
  | cons c cs ih =>
    rw [applyCmds_cons]
    by_cases htail : ∃ d ∈ cs, covers d p
    · exact ih (fun d hd => hfill d (List.mem_cons_of_mem c hd)) htail _
    · push_neg at htail
      have hhead : covers c p := by
        rcases hcov with ⟨d, hd, hdc⟩
        rcases List.mem_cons.mp hd with rfl | hdm
        · exact hdc
        · exact absurd hdc (htail d hdm)
      rw [applyCmds_not_covered htail]
      simp [applyCmd, hhead, hfill c (List.mem_cons_self c cs)]

/-- **C4** — For colors with 8-bit channels and a ratio `r ∈ [0, 1]`, every
channel of `interpolate_color(c1, c2, r)` lies between the corresponding
channels of `c1` and `c2` inclusive, and `r = 0` returns exactly `c1` while
`r = 1` returns exactly `c2`. -/
theorem interpolate_color_between_endpoints (c1 c2 : Color) (r : ℚ)
    (h1 : validColor c1) (h2 : validColor c2) (hr0 : 0 ≤ r) (hr1 : r ≤ 1) :
    (min c1.1 c2.1 ≤ (interpolate_color c1 c2 r).1 ∧
        (interpolate_color c1 c2 r).1 ≤ max c1.1 c2.1) ∧
      (min c1.2.1 c2.2.1 ≤ (interpolate_color c1 c2 r).2.1 ∧
        (interpolate_color c1 c2 r).2.1 ≤ max c1.2.1 c2.2.1) ∧
      (min c1.2.2 c2.2.2 ≤ (interpolate_color c1 c2 r).2.2 ∧
        (interpolate_color c1 c2 r).2.2 ≤ max c1.2.2 c2.2.2) ∧
      interpolate_color c1 c2 0 = c1 ∧ interpolate_color c1 c2 1 = c2 := by
  obtain ⟨ha1, -, hb1, -, hc1, -⟩ := h1
  obtain ⟨ha2, -, hb2, -, hc2, -⟩ := h2
  have e0 : ∀ a b : ℤ, pyInt ((a : ℚ) + ((b : ℚ) - a) * 0) = a := by
    intro a b
    rw [show (a : ℚ) + ((b : ℚ) - a) * 0 = (a : ℚ) from by ring, pyInt_intCast]
  have e1 : ∀ a b : ℤ, pyInt ((a : ℚ) + ((b : ℚ) - a) * 1) = b := by
    intro a b
    rw [show (a : ℚ) + ((b : ℚ) - a) * 1 = (b : ℚ) from by ring, pyInt_intCast]
  refine ⟨pyInt_channel_between _ _ r ha1 ha2 hr0 hr1,
    pyInt_channel_between _ _ r hb1 hb2 hr0 hr1,
    pyInt_channel_between _ _ r hc1 hc2 hr0 hr1, ?_, ?_⟩
  · show (pyInt _, pyInt _, pyInt _) = c1
    rw [e0, e0, e0]
  · show (pyInt _, pyInt _, pyInt _) = c2
    rw [e1, e1, e1]

/-- Witness for C4 at `c1 = (0, 10, 255)`, `c2 = (255, 0, 0)`, `r = 0`. -/
theorem interpolate_color_between_endpoints_witness :
    validColor (0, 10, 255) ∧ validColor (255, 0, 0) ∧ (0 : ℚ) ≤ 0 ∧ (0 : ℚ) ≤ 1 ∧
      ((min ((0, 10, 255) : Color).1 ((255, 0, 0) : Color).1 ≤
          (interpolate_color (0, 10, 255) (255, 0, 0) 0).1 ∧
        (interpolate_color (0, 10, 255) (255, 0, 0) 0).1 ≤
          max ((0, 10, 255) : Color).1 ((255, 0, 0) : Color).1) ∧
      (min ((0, 10, 255) : Color).2.1 ((255, 0, 0) : Color).2.1 ≤
          (interpolate_color (0, 10, 255) (255, 0, 0) 0).2.1 ∧
        (interpolate_color (0, 10, 255) (255, 0, 0) 0).2.1 ≤
          max ((0, 10, 255) : Color).2.1 ((255, 0, 0) : Color).2.1) ∧
      (min ((0, 10, 255) : Color).2.2 ((255, 0, 0) : Color).2.2 ≤
          (interpolate_color (0, 10, 255) (255, 0, 0) 0).2.2 ∧
        (interpolate_color (0, 10, 255) (255, 0, 0) 0).2.2 ≤
          max ((0, 10, 255) : Color).2.2 ((255, 0, 0) : Color).2.2) ∧
      interpolate_color (0, 10, 255) (255, 0, 0) 0 = (0, 10, 255) ∧
      interpolate_color (0, 10, 255) (255, 0, 0) 1 = (255, 0, 0)) :=
  ⟨by decide, by decide, le_rfl, zero_le_one,
    interpolate_color_between_endpoints (0, 10, 255) (255, 0, 0) 0
      (by decide) (by decide) le_rfl zero_le_one⟩

/-- **C5 counterexample** — at `c1 = (0,0,0)`, `c2 = (255,255,255)`,
`r = -1/2` the first channel of `interpolate_color` is `-127` (Python's
`int()` truncates toward zero) while `floor(c1 + (c2 - c1) * r) = -128`:
the claimed floor formula is false for ratios making the value negative. -/
theorem interpolate_color_not_floor :
    (interpolate_color (0, 0, 0) (255, 255, 255) (-(1 : ℚ) / 2)).1 = -127 ∧
      ⌊(((0 : ℤ) : ℚ) + (((255 : ℤ) : ℚ) - ((0 : ℤ) : ℚ)) * (-(1 : ℚ) / 2))⌋ = -128 := by
  constructor
  · show pyInt (((0 : ℤ) : ℚ) + (((255 : ℤ) : ℚ) - ((0 : ℤ) : ℚ)) * (-(1 : ℚ) / 2)) = -127
    rw [show (((0 : ℤ) : ℚ) + (((255 : ℤ) : ℚ) - ((0 : ℤ) : ℚ)) * (-(1 : ℚ) / 2))
        = -(255 / 2 : ℚ) from by norm_num]
    rw [pyInt, if_neg (by norm_num)]
    rw [Int.ceil_eq_iff]
    norm_num
  · rw [Int.floor_eq_iff]
    norm_num

/-- **C5 (amended)** — whenever the intermediate value
`c1[i] + (c2[i] - c1[i]) * r` is non-negative (in particular for any
`r ∈ [0, 1]` on 8-bit colors), the corresponding channel of
`interpolate_color` equals its floor; for negative values Python's `int()`
yields the ceiling instead (see the counterexample). -/
theorem interpolate_color_floor_of_nonneg (c1 c2 : Color) (r : ℚ)
    (h1 : 0 ≤ (c1.1 : ℚ) + ((c2.1 : ℚ) - c1.1) * r)
    (h2 : 0 ≤ (c1.2.1 : ℚ) + ((c2.2.1 : ℚ) - c1.2.1) * r)
    (h3 : 0 ≤ (c1.2.2 : ℚ) + ((c2.2.2 : ℚ) - c1.2.2) * r) :
    interpolate_color c1 c2 r =
      (⌊(c1.1 : ℚ) + ((c2.1 : ℚ) - c1.1) * r⌋,
       ⌊(c1.2.1 : ℚ) + ((c2.2.1 : ℚ) - c1.2.1) * r⌋,
       ⌊(c1.2.2 : ℚ) + ((c2.2.2 : ℚ) - c1.2.2) * r⌋) := by
  unfold interpolate_color
  rw [pyInt_eq_floor h1, pyInt_eq_floor h2, pyInt_eq_floor h3]

/-- Witness for C5 (amended) at `c1 = (0,0,0)`, `c2 = (10,20,30)`,
`r = 2` (note `r` outside `[0,1]`). -/
theorem interpolate_color_floor_of_nonneg_witness :
    0 ≤ (((0, 0, 0) : Color).1 : ℚ) + ((((10, 20, 30) : Color).1 : ℚ) - ((0, 0, 0) : Color).1) * 2 ∧
      0 ≤ (((0, 0, 0) : Color).2.1 : ℚ) + ((((10, 20, 30) : Color).2.1 : ℚ) - ((0, 0, 0) : Color).2.1) * 2 ∧
      0 ≤ (((0, 0, 0) : Color).2.2 : ℚ) + ((((10, 20, 30) : Color).2.2 : ℚ) - ((0, 0, 0) : Color).2.2) * 2 ∧
      interpolate_color (0, 0, 0) (10, 20, 30) 2 =
        (⌊(((0, 0, 0) : Color).1 : ℚ) + ((((10, 20, 30) : Color).1 : ℚ) - ((0, 0, 0) : Color).1) * 2⌋,
         ⌊(((0, 0, 0) : Color).2.1 : ℚ) + ((((10, 20, 30) : Color).2.1 : ℚ) - ((0, 0, 0) : Color).2.1) * 2⌋,
         ⌊(((0, 0, 0) : Color).2.2 : ℚ) + ((((10, 20, 30) : Color).2.2 : ℚ) - ((0, 0, 0) : Color).2.2) * 2⌋) :=
  ⟨by simp, by simp, by simp,
    interpolate_color_floor_of_nonneg (0, 0, 0) (10, 20, 30) 2
      (by simp) (by simp) (by simp)⟩

/-- If `s^2 + u^2 ≤ t^2` with `t > 0` then `-t ≤ s ≤ t`. -/
theorem sq_bound_le (s t u : ℚ) (ht : 0 < t) (h : s ^ 2 + u ^ 2 ≤ t ^ 2) :
    -t ≤ s ∧ s ≤ t := by
  constructor
  · by_contra hc
    push_neg at hc
    nlinarith [sq_nonneg u]
  · by_contra hc
    push_neg at hc
    nlinarith [sq_nonneg u]

/-- A pixel covered by a (non-degenerate) ellipse command lies inside the
ellipse's bounding box. -/
theorem covers_ellipse_bounds (x0 y0 x1 y1 : ℚ) (f : Color) (p : ℤ × ℤ)
    (hx : x0 < x1) (hy : y0 < y1)
    (hcov : covers (DrawCmd.ellipse x0 y0 x1 y1 f) p) :
    x0 ≤ (p.1 : ℚ) ∧ (p.1 : ℚ) ≤ x1 ∧ y0 ≤ (p.2 : ℚ) ∧ (p.2 : ℚ) ≤ y1 := by
  simp only [covers] at hcov
  have hrx : 0 < (x1 - x0) / 2 := by linarith
  have hry : 0 < (y1 - y0) / 2 := by linarith
  have ht : 0 < ((x1 - x0) / 2) * ((y1 - y0) / 2) := mul_pos hrx hry
  obtain ⟨hsx1, hsx2⟩ := sq_bound_le _ _ _ ht hcov
  obtain ⟨hsy1, hsy2⟩ := sq_bound_le _ _ _ ht (by linarith [hcov] :
    (((x1 - x0) / 2) * ((p.2 : ℚ) - (y0 + y1) / 2)) ^ 2 +
        (((y1 - y0) / 2) * ((p.1 : ℚ) - (x0 + x1) / 2)) ^ 2 ≤
      (((x1 - x0) / 2) * ((y1 - y0) / 2)) ^ 2)
  refine ⟨by nlinarith [hsx1, hry], by nlinarith [hsx2, hry],
    by nlinarith [hsy1, hrx], by nlinarith [hsy2, hrx]⟩

/-- **C7 counterexample** — At radius `R = 0` (permitted by `2R < min(W,H)`)
`draw_rounded_rect` paints the whole box, corners included: on the box
`[0, 0, 10, 10]` over a `(0,0,0)` background with fill `(5,5,5)`, the corner
pixel `(0, 0)` ends up with the fill color, contradicting the claim that
corner pixels are never the fill color. -/
theorem draw_rounded_rect_corner_filled_at_zero_radius :
    applyCmds (draw_rounded_rect 0 0 10 10 0 (5, 5, 5))
        (fun _ => ((0, 0, 0) : Color)) (0, 0) = (5, 5, 5) ∧
      2 * (0 : ℕ) < min 10 10 := by
  constructor
  · norm_num [draw_rounded_rect, applyCmds, applyCmd, covers, fillOf,
      List.foldl]
  · norm_num

set_option maxHeartbeats 1600000

/-- **C7 (amended)** — For a box of width `W`, height `H` and radius `R` with
`1 ≤ R` and `2R < min(W, H)` (the radius must be positive: at `R = 0` the
two rectangles already cover the whole box, see the counterexample),
painting `draw_rounded_rect` over a constant background distinct from the
fill leaves the four corner pixels unpainted while the four edge midpoints
receive the fill color. -/
theorem draw_rounded_rect_corners_midpoints (x1 y1 : ℤ) (W H R : ℕ)
    (fill bg : Color) (img : Image)
    (hR : 1 ≤ R) (hW : 2 * R < W) (hH : 2 * R < H) (hfb : fill ≠ bg)
    (himg : img = applyCmds
      (draw_rounded_rect (x1 : ℚ) (y1 : ℚ) ((x1 : ℚ) + (W : ℚ))
        ((y1 : ℚ) + (H : ℚ)) (R : ℚ) fill)
      (fun _ => bg)) :
    (img (x1, y1) ≠ fill ∧ img (x1 + (W : ℤ), y1) ≠ fill ∧
        img (x1, y1 + (H : ℤ)) ≠ fill ∧
        img (x1 + (W : ℤ), y1 + (H : ℤ)) ≠ fill) ∧
      (img (x1 + ((W / 2 : ℕ) : ℤ), y1) = fill ∧
        img (x1 + ((W / 2 : ℕ) : ℤ), y1 + (H : ℤ)) = fill ∧
        img (x1, y1 + ((H / 2 : ℕ) : ℤ)) = fill ∧
        img (x1 + (W : ℤ), y1 + ((H / 2 : ℕ) : ℤ)) = fill) := by
  have hq0 : (0 : ℚ) < (R : ℚ) := by exact_mod_cast (by omega : 0 < R)
  have hq1 : (1 : ℚ) ≤ (R : ℚ) := by exact_mod_cast hR
  have hWq : 2 * (R : ℚ) < (W : ℚ) := by exact_mod_cast hW
  have hHq : 2 * (R : ℚ) < (H : ℚ) := by exact_mod_cast hH
  have hfill : ∀ c ∈ draw_rounded_rect (x1 : ℚ) (y1 : ℚ) ((x1 : ℚ) + (W : ℚ))
      ((y1 : ℚ) + (H : ℚ)) (R : ℚ) fill, fillOf c = fill := by
    intro c hc
    simp only [draw_rounded_rect, List.mem_cons, List.not_mem_nil,
      or_false] at hc
    rcases hc with rfl | rfl | rfl | rfl | rfl | rfl <;> rfl
  have hnocover : ∀ px py : ℤ,
      ((px : ℚ) = (x1 : ℚ) ∨ (px : ℚ) = (x1 : ℚ) + (W : ℚ)) →
      ((py : ℚ) = (y1 : ℚ) ∨ (py : ℚ) = (y1 : ℚ) + (H : ℚ)) →
      ∀ c ∈ draw_rounded_rect (x1 : ℚ) (y1 : ℚ) ((x1 : ℚ) + (W : ℚ))
        ((y1 : ℚ) + (H : ℚ)) (R : ℚ) fill, ¬ covers c (px, py) := by
    intro px py hpx hpy c hc
    simp only [draw_rounded_rect, List.mem_cons, List.not_mem_nil,
      or_false] at hc
    rcases hc with rfl | rfl | rfl | rfl | rfl | rfl <;> intro hcov <;>
      rcases hpx with hpx | hpx <;> rcases hpy with hpy | hpy <;>
      first
        | (simp only [covers] at hcov
           obtain ⟨a1, a2, a3, a4⟩ := hcov
           rw [hpx] at a1 a2
           rw [hpy] at a3 a4
           linarith)
        | (obtain ⟨b1, b2, b3, b4⟩ :=
            covers_ellipse_bounds _ _ _ _ _ _ (by linarith) (by linarith) hcov
           rw [hpx] at b1 b2
           rw [hpy] at b3 b4
           linarith)
        | (simp only [covers] at hcov
           rw [hpx, hpy] at hcov
           nlinarith [hcov, pow_pos hq0 4])
  constructor
  · refine ⟨?_, ?_, ?_, ?_⟩
    · rw [himg, applyCmds_not_covered
        (hnocover x1 y1 (Or.inl rfl) (Or.inl rfl))]
      intro hcontra
      exact hfb hcontra.symm
    · rw [himg, applyCmds_not_covered
        (hnocover (x1 + (W : ℤ)) y1 (Or.inr (by push_cast; ring)) (Or.inl rfl))]
      intro hcontra
      exact hfb hcontra.symm
    · rw [himg, applyCmds_not_covered
        (hnocover x1 (y1 + (H : ℤ)) (Or.inl rfl) (Or.inr (by push_cast; ring)))]
      intro hcontra
      exact hfb hcontra.symm
    · rw [himg, applyCmds_not_covered
        (hnocover (x1 + (W : ℤ)) (y1 + (H : ℤ))
          (Or.inr (by push_cast; ring)) (Or.inr (by push_cast; ring)))]
      intro hcontra
      exact hfb hcontra.symm
  · have hW2a : (R : ℚ) ≤ (((W : ℤ) / 2 : ℤ) : ℚ) := by
      exact_mod_cast (show (R : ℤ) ≤ (W : ℤ) / 2 by omega)
    have hW2b : (((W : ℤ) / 2 : ℤ) : ℚ) + (R : ℚ) ≤ (W : ℚ) := by
      exact_mod_cast (show (W : ℤ) / 2 + (R : ℤ) ≤ (W : ℤ) by omega)
    have hH2a : (R : ℚ) ≤ (((H : ℤ) / 2 : ℤ) : ℚ) := by
      exact_mod_cast (show (R : ℤ) ≤ (H : ℤ) / 2 by omega)
    have hH2b : (((H : ℤ) / 2 : ℤ) : ℚ) + (R : ℚ) ≤ (H : ℚ) := by
      exact_mod_cast (show (H : ℤ) / 2 + (R : ℤ) ≤ (H : ℤ) by omega)
    refine ⟨?_, ?_, ?_, ?_⟩
    · -- top edge midpoint: covered by the horizontal band rectangle
      rw [himg]
      refine applyCmds_covered_fill hfill
        ⟨DrawCmd.rect ((x1 : ℚ) + (R : ℚ)) (y1 : ℚ)
          ((x1 : ℚ) + (W : ℚ) - (R : ℚ)) ((y1 : ℚ) + (H : ℚ)) fill,
          by simp [draw_rounded_rect], ?_⟩ _
      simp only [covers]
      push_cast
      refine ⟨by linarith, by linarith, by linarith, by linarith⟩
    · -- bottom edge midpoint: also in the horizontal band rectangle
      rw [himg]
      refine applyCmds_covered_fill hfill
        ⟨DrawCmd.rect ((x1 : ℚ) + (R : ℚ)) (y1 : ℚ)
          ((x1 : ℚ) + (W : ℚ) - (R : ℚ)) ((y1 : ℚ) + (H : ℚ)) fill,
          by simp [draw_rounded_rect], ?_⟩ _
      simp only [covers]
      push_cast
      refine ⟨by linarith, by linarith, by linarith, by linarith⟩
    · -- left edge midpoint: covered by the vertical band rectangle
      rw [himg]
      refine applyCmds_covered_fill hfill
        ⟨DrawCmd.rect (x1 : ℚ) ((y1 : ℚ) + (R : ℚ)) ((x1 : ℚ) + (W : ℚ))
          ((y1 : ℚ) + (H : ℚ) - (R : ℚ)) fill,
          by simp [draw_rounded_rect], ?_⟩ _
      simp only [covers]
      push_cast
      refine ⟨by linarith, by linarith, by linarith, by linarith⟩
    · -- right edge midpoint: also in the vertical band rectangle
      rw [himg]
      refine applyCmds_covered_fill hfill
        ⟨DrawCmd.rect (x1 : ℚ) ((y1 : ℚ) + (R : ℚ)) ((x1 : ℚ) + (W : ℚ))
          ((y1 : ℚ) + (H : ℚ) - (R : ℚ)) fill,
          by simp [draw_rounded_rect], ?_⟩ _
      simp only [covers]
      push_cast
      refine ⟨by linarith, by linarith, by linarith, by linarith⟩

/-- Witness for C7 (amended) on the box `[0, 0, 10, 10]` with radius `2`,
fill `(1,1,1)`, background `(0,0,0)`. -/
theorem draw_rounded_rect_corners_midpoints_witness :
    (1 : ℕ) ≤ 2 ∧ 2 * 2 < (10 : ℕ) ∧ ((1, 1, 1) : Color) ≠ (0, 0, 0) ∧
      (let img := applyCmds
        (draw_rounded_rect ((0 : ℤ) : ℚ) ((0 : ℤ) : ℚ)
          (((0 : ℤ) : ℚ) + ((10 : ℕ) : ℚ)) (((0 : ℤ) : ℚ) + ((10 : ℕ) : ℚ))
          ((2 : ℕ) : ℚ) (1, 1, 1))
        (fun _ => ((0, 0, 0) : Color))
      (img ((0 : ℤ), (0 : ℤ)) ≠ (1, 1, 1) ∧
          img ((0 : ℤ) + ((10 : ℕ) : ℤ), (0 : ℤ)) ≠ (1, 1, 1) ∧
          img ((0 : ℤ), (0 : ℤ) + ((10 : ℕ) : ℤ)) ≠ (1, 1, 1) ∧
          img ((0 : ℤ) + ((10 : ℕ) : ℤ), (0 : ℤ) + ((10 : ℕ) : ℤ)) ≠ (1, 1, 1)) ∧
        (img ((0 : ℤ) + ((10 / 2 : ℕ) : ℤ), (0 : ℤ)) = (1, 1, 1) ∧
          img ((0 : ℤ) + ((10 / 2 : ℕ) : ℤ), (0 : ℤ) + ((10 : ℕ) : ℤ)) = (1, 1, 1) ∧
          img ((0 : ℤ), (0 : ℤ) + ((10 / 2 : ℕ) : ℤ)) = (1, 1, 1) ∧
          img ((0 : ℤ) + ((10 : ℕ) : ℤ), (0 : ℤ) + ((10 / 2 : ℕ) : ℤ)) = (1, 1, 1))) :=
  ⟨by decide, by decide, by decide,
    draw_rounded_rect_corners_midpoints 0 0 10 10 2 (1, 1, 1) (0, 0, 0) _
      (by decide) (by decide) (by decide) (by decide) rfl⟩

/-- The dumbbell draw trace with all layout arithmetic evaluated. -/
theorem dumbbellCmds_eq (pc ac : Color) :
    dumbbellCmds pc ac =
      draw_rounded_rect 292 372 412 652 30 pc ++
        draw_rounded_rect 312 392 392 632 20
          (interpolate_color pc COLORS_primary_light (0.3 : ℚ)) ++
        (List.range 20).map (fun i : ℕ =>
          DrawCmd.rect (312 + (i : ℚ) * 20) 482 (312 + ((i : ℚ) + 1) * 20 + 1)
            542 (interpolate_color pc ac ((i : ℚ) / 19))) ++
        draw_rounded_rect 612 372 732 652 30 ac ++
        draw_rounded_rect 632 392 712 632 20
          (interpolate_color ac COLORS_white (0.2 : ℚ)) := by
  simp only [dumbbellCmds, CENTER, SIZE]
  norm_num

/-- Every command of any `draw_rounded_rect` trace paints only inside the
given bounding box (assuming a positive radius fitting twice in each
dimension, as all calls in this script satisfy). -/
theorem draw_rounded_rect_covers_in_box (a b c d rq : ℚ) (f : Color)
    (p : ℤ × ℤ) (hrq : 0 < rq) (hac : a + 2 * rq ≤ c) (hbd : b + 2 * rq ≤ d) :
    ∀ cmd ∈ draw_rounded_rect a b c d rq f, covers cmd p →
      a ≤ (p.1 : ℚ) ∧ (p.1 : ℚ) ≤ c ∧ b ≤ (p.2 : ℚ) ∧ (p.2 : ℚ) ≤ d := by
  intro cmd hc hcov
  simp only [draw_rounded_rect, List.mem_cons, List.not_mem_nil,
    or_false] at hc
  rcases hc with rfl | rfl | rfl | rfl | rfl | rfl
  · simp only [covers] at hcov
    obtain ⟨a1, a2, a3, a4⟩ := hcov
    exact ⟨by linarith, by linarith, by linarith, by linarith⟩
  · simp only [covers] at hcov
    obtain ⟨a1, a2, a3, a4⟩ := hcov
    exact ⟨by linarith, by linarith, by linarith, by linarith⟩
  · obtain ⟨b1, b2, b3, b4⟩ :=
      covers_ellipse_bounds _ _ _ _ _ _ (by linarith) (by linarith) hcov
    exact ⟨by linarith, by linarith, by linarith, by linarith⟩
  · obtain ⟨b1, b2, b3, b4⟩ :=
      covers_ellipse_bounds _ _ _ _ _ _ (by linarith) (by linarith) hcov
    exact ⟨by linarith, by linarith, by linarith, by linarith⟩
  · obtain ⟨b1, b2, b3, b4⟩ :=
      covers_ellipse_bounds _ _ _ _ _ _ (by linarith) (by linarith) hcov
    exact ⟨by linarith, by linarith, by linarith, by linarith⟩
  · obtain ⟨b1, b2, b3, b4⟩ :=
      covers_ellipse_bounds _ _ _ _ _ _ (by linarith) (by linarith) hcov
    exact ⟨by linarith, by linarith, by linarith, by linarith⟩

/-- Every pixel any dumbbell command paints lies in
`[292, 732] × [372, 652]`. -/
theorem dumbbell_covers_in_frame (pc ac : Color) (p : ℤ × ℤ) (cmd : DrawCmd)
    (hc : cmd ∈ dumbbellCmds pc ac) (hcov : covers cmd p) :
    (292 : ℚ) ≤ (p.1 : ℚ) ∧ (p.1 : ℚ) ≤ 732 ∧
      (372 : ℚ) ≤ (p.2 : ℚ) ∧ (p.2 : ℚ) ≤ 652 := by
  rw [dumbbellCmds_eq] at hc
  rcases List.mem_append.mp hc with h4 | hE
  · rcases List.mem_append.mp h4 with h3 | hD
    · rcases List.mem_append.mp h3 with h2 | hbar
      · rcases List.mem_append.mp h2 with hA | hB
        · obtain ⟨b1, b2, b3, b4⟩ := draw_rounded_rect_covers_in_box
            292 372 412 652 30 pc p (by norm_num) (by norm_num) (by norm_num)
            cmd hA hcov
          exact ⟨by linarith, by linarith, by linarith, by linarith⟩
        · obtain ⟨b1, b2, b3, b4⟩ := draw_rounded_rect_covers_in_box
            312 392 392 632 20 _ p (by norm_num) (by norm_num) (by norm_num)
            cmd hB hcov
          exact ⟨by linarith, by linarith, by linarith, by linarith⟩
      · obtain ⟨i, hi, rfl⟩ := List.mem_map.mp hbar
        have hi20 : i < 20 := by simpa using hi
        have hi0 : (0 : ℚ) ≤ (i : ℚ) := Nat.cast_nonneg i
        have hi19 : (i : ℚ) ≤ 19 := by
          exact_mod_cast Nat.lt_succ_iff.mp hi20
        simp only [covers] at hcov
        obtain ⟨a1, a2, a3, a4⟩ := hcov
        exact ⟨by linarith, by linarith, by linarith, by linarith⟩
    · obtain ⟨b1, b2, b3, b4⟩ := draw_rounded_rect_covers_in_box
        612 372 732 652 30 ac p (by norm_num) (by norm_num) (by norm_num)
        cmd hD hcov
      exact ⟨by linarith, by linarith, by linarith, by linarith⟩
  · obtain ⟨b1, b2, b3, b4⟩ := draw_rounded_rect_covers_in_box
      632 392 712 632 20 _ p (by norm_num) (by norm_num) (by norm_num)
      cmd hE hcov
    exact ⟨by linarith, by linarith, by linarith, by linarith⟩

/-- **C10** — `draw_dumbbell` mutates only pixels inside the rectangle with
left `292`, top `372`, right `732`, bottom `652` (inclusive); every pixel
outside keeps the value it had before the call, so the background gradient
is untouched there. -/
theorem draw_dumbbell_frame (primary accent : Color) (img : Image) (x y : ℤ)
    (hout : x < 292 ∨ 732 < x ∨ y < 372 ∨ 652 < y) :
    draw_dumbbell img primary accent (x, y) = img (x, y) := by
  unfold draw_dumbbell
  apply applyCmds_not_covered
  intro c hc hcov
  obtain ⟨h1, h2, h3, h4⟩ := dumbbell_covers_in_frame primary accent (x, y) c hc hcov
  have hx1 : (292 : ℤ) ≤ x := by exact_mod_cast h1
  have hx2 : x ≤ (732 : ℤ) := by exact_mod_cast h2
  have hy1 : (372 : ℤ) ≤ y := by exact_mod_cast h3
  have hy2 : y ≤ (652 : ℤ) := by exact_mod_cast h4
  rcases hout with h | h | h | h <;> omega

/-- Witness for C10 at the pixel `(0, 0)` over the image constantly
`(7, 7, 7)`. -/
theorem draw_dumbbell_frame_witness :
    ((0 : ℤ) < 292 ∨ (732 : ℤ) < 0 ∨ (0 : ℤ) < 372 ∨ (652 : ℤ) < 0) ∧
      draw_dumbbell (fun _ => ((7, 7, 7) : Color)) (1, 2, 3) (4, 5, 6)
          ((0 : ℤ), (0 : ℤ)) =
        (fun _ => ((7, 7, 7) : Color)) ((0 : ℤ), (0 : ℤ)) :=
  ⟨by decide,
    draw_dumbbell_frame (1, 2, 3) (4, 5, 6) (fun _ => (7, 7, 7)) 0 0 (by decide)⟩

/-- **C8** — `main` generates and saves the three variants strictly
sequentially in the order `AppIcon.png`, `AppIcon-Dark.png`,
`AppIcon-Tinted.png` (each generation immediately followed by its save,
after the initial `makedirs`); a failing save propagates uncaught as the
error, aborts everything after it, and performs no cleanup: the files of
the earlier variants remain exactly as written. -/
theorem main_run_sequential (ok : String → Bool) :
    main_run ok =
      if ok "AppIcon.png" then
        if ok "AppIcon-Dark.png" then
          if ok "AppIcon-Tinted.png" then
            ([Event.makedirs, Event.generate "AppIcon.png",
              Event.save "AppIcon.png", Event.generate "AppIcon-Dark.png",
              Event.save "AppIcon-Dark.png",
              Event.generate "AppIcon-Tinted.png",
              Event.save "AppIcon-Tinted.png"],
             [("AppIcon.png", generate_main_icon),
              ("AppIcon-Dark.png", generate_dark_icon),
              ("AppIcon-Tinted.png", generate_tinted_icon)], none)
          else
            ([Event.makedirs, Event.generate "AppIcon.png",
              Event.save "AppIcon.png", Event.generate "AppIcon-Dark.png",
              Event.save "AppIcon-Dark.png",
              Event.generate "AppIcon-Tinted.png",
              Event.save "AppIcon-Tinted.png"],
             [("AppIcon.png", generate_main_icon),
              ("AppIcon-Dark.png", generate_dark_icon)],
             some "AppIcon-Tinted.png")
        else
          ([Event.makedirs, Event.generate "AppIcon.png",
            Event.save "AppIcon.png", Event.generate "AppIcon-Dark.png",
            Event.save "AppIcon-Dark.png"],
           [("AppIcon.png", generate_main_icon)], some "AppIcon-Dark.png")
      else
        ([Event.makedirs, Event.generate "AppIcon.png",
          Event.save "AppIcon.png"], [], some "AppIcon.png") := by
  cases h1 : ok "AppIcon.png" <;> cases h2 : ok "AppIcon-Dark.png" <;>
    cases h3 : ok "AppIcon-Tinted.png" <;>
      simp [main_run, saveLoop, mainFiles, h1, h2, h3]

/-- **C9** — The program is fully deterministic: its outputs are the same
function of the hard-coded constants in every run environment (no clock,
no randomness, no input is consulted), so two runs produce identical pixel
data for each of the three variants. -/
theorem program_deterministic :
    (∀ w w' : World, programOutputs w = programOutputs w') ∧
      ∀ w : World, programOutputs w =
        [("AppIcon.png", generate_main_icon),
         ("AppIcon-Dark.png", generate_dark_icon),
         ("AppIcon-Tinted.png", generate_tinted_icon)] :=
  ⟨fun _ _ => rfl, fun _ => rfl⟩

/-- **C3 counterexample** — `create_radial_gradient` does not produce an
image for every size: at `size = 1`, `max_dist = sqrt(2) * (1 // 2) = 0.0`
and the first pixel evaluates `0.0 / 0.0`, raising `ZeroDivisionError`
(embedded as `none`). -/
theorem create_radial_gradient_size_one_crashes :
    create_radial_gradient 1 (0, 0, 0) (255, 255, 255) = none := rfl

/-- **C2** — In every call `draw_dumbbell(img, primary, accent)` the left
plate's inset rounded rectangle (commands 6–11 of the draw trace) is the
rounded rectangle on box `[312, 392, 392, 632]` with radius `20` filled
with `interpolate_color(primary, (129, 140, 248), 0.3)` — the fixed palette
entry `COLORS['primary_light']`; the fill does not depend on the `accent`
argument (which does not occur on the right-hand side), nor on the variant
being generated. -/
theorem draw_dumbbell_left_inset_fill (primary accent : Color) :
    ((dumbbellCmds primary accent).drop 6).take 6 =
      draw_rounded_rect 312 392 392 632 20
        (interpolate_color primary (129, 140, 248) (0.3 : ℚ)) := by
  show ((dumbbellCmds primary accent).drop 6).take 6 =
      draw_rounded_rect 312 392 392 632 20
        (interpolate_color primary COLORS_primary_light (0.3 : ℚ))
  simp only [dumbbellCmds, draw_rounded_rect, CENTER, SIZE]
  norm_num [List.drop, List.take]

/-- **C6** — The draw trace of `draw_dumbbell` has exactly 44 commands, of
which the bar occupies indices 12–31: 20 vertical segments; segment `i`
(`0 ≤ i ≤ 19`) is the rectangle from `x = 312 + 20 i` to
`x = 312 + 20 (i + 1) + 1` (one unit past its nominal right edge
`312 + 20 (i + 1)`, so consecutive segments overlap by one unit) spanning
`y ∈ [482, 542]`, filled with `interpolate_color(primary, accent, i / 19)`;
the nominal segment width is the same `20 = 400 / 20` for every `i`. -/
theorem draw_dumbbell_bar_segments (primary accent : Color) (i : ℕ)
    (hi : i < 20) :
    (dumbbellCmds primary accent).length = 44 ∧
      (dumbbellCmds primary accent).get? (12 + i) =
        some (DrawCmd.rect (312 + 20 * (i : ℚ)) 482
          (312 + 20 * ((i : ℚ) + 1) + 1) 542
          (interpolate_color primary accent ((i : ℚ) / 19))) ∧
      (312 + 20 * ((i : ℚ) + 1)) - (312 + 20 * (i : ℚ)) = 20 := by
  refine ⟨?_, ?_, by ring⟩
  · rfl
  · interval_cases i <;>
      · simp only [dumbbellCmds, draw_rounded_rect, CENTER, SIZE]
        norm_num [List.get?]

/-- Evaluation of `pyInt` at a concrete non-negative value. -/
theorem pyInt_eval {q : ℚ} {z : ℤ} (h0 : 0 ≤ q) (h1 : (z : ℚ) ≤ q)
    (h2 : q < z + 1) : pyInt q = z := by
  rw [pyInt_eq_floor h0, Int.floor_eq_iff]
  exact ⟨h1, h2⟩

/-- The left-plate inset fill of the tinted variant: interpolating the gray
`(180,180,180)` 30% toward the fixed indigo `primary_light` gives the
visibly non-gray `(164, 168, 200)` (exact values `164.7`, `168`, `200.4`
before truncation). -/
theorem tinted_inset_fill_value :
    interpolate_color (180, 180, 180) COLORS_primary_light (0.3 : ℚ) =
      (164, 168, 200) := by
  show (pyInt _, pyInt _, pyInt _) = (164, 168, 200)
  rw [show COLORS_primary_light = ((129 : ℤ), (140 : ℤ), (248 : ℤ)) from rfl]
  rw [pyInt_eval (z := 164) (by norm_num) (by norm_num) (by norm_num),
    pyInt_eval (z := 168) (by norm_num) (by norm_num) (by norm_num),
    pyInt_eval (z := 200) (by norm_num) (by norm_num) (by norm_num)]

/-- **C1 (code bug)** — The tinted ("monochrome") variant contains pixels
that are far from grayscale: at pixel `(352, 420)` — inside the left
plate's inset but outside the bar — the image value is `(164, 168, 200)`,
whose blue and red channels differ by `36`, far beyond rounding tolerance.
The cause is `draw_dumbbell` hard-coding `COLORS['primary_light']` (an
indigo) for the left inset even when called with gray colors, contradicting
`generate_tinted_icon`'s own "monochrome"/"grayscale" comments. -/
theorem generate_tinted_icon_not_grayscale :
    ∃ img : PImage, generate_tinted_icon = some img ∧
      img.pix (352, 420) = (164, 168, 200) ∧
      (img.pix (352, 420)).2.2 - (img.pix (352, 420)).1 = 36 := by
  have hpix : ∀ base : Image,
      draw_dumbbell base (180, 180, 180) (220, 220, 220) (352, 420) =
        (164, 168, 200) := by
    intro base
    unfold draw_dumbbell
    rw [dumbbellCmds_eq, applyCmds_append, applyCmds_append, applyCmds_append,
      applyCmds_append]
    have hnotE : ∀ f, ∀ cmd ∈ draw_rounded_rect 632 392 712 632 20 f,
        ¬ covers cmd ((352 : ℤ), (420 : ℤ)) := by
      intro f cmd hc hcov
      obtain ⟨b1, -, -, -⟩ := draw_rounded_rect_covers_in_box
        632 392 712 632 20 f (352, 420) (by norm_num) (by norm_num)
        (by norm_num) cmd hc hcov
      norm_num at b1
    have hnotD : ∀ f, ∀ cmd ∈ draw_rounded_rect 612 372 732 652 30 f,
        ¬ covers cmd ((352 : ℤ), (420 : ℤ)) := by
      intro f cmd hc hcov
      obtain ⟨b1, -, -, -⟩ := draw_rounded_rect_covers_in_box
        612 372 732 652 30 f (352, 420) (by norm_num) (by norm_num)
        (by norm_num) cmd hc hcov
      norm_num at b1
    have hnotBar : ∀ cmd ∈ (List.range 20).map (fun i : ℕ =>
        DrawCmd.rect (312 + (i : ℚ) * 20) 482 (312 + ((i : ℚ) + 1) * 20 + 1)
          542 (interpolate_color (180, 180, 180) (220, 220, 220) ((i : ℚ) / 19))),
        ¬ covers cmd ((352 : ℤ), (420 : ℤ)) := by
      intro cmd hc hcov
      obtain ⟨i, -, rfl⟩ := List.mem_map.mp hc
      simp only [covers] at hcov
      obtain ⟨-, -, a3, -⟩ := hcov
      norm_num at a3
    have hfillB : ∀ cmd ∈ draw_rounded_rect 312 392 392 632 20
        (interpolate_color (180, 180, 180) COLORS_primary_light (0.3 : ℚ)),
        fillOf cmd =
          interpolate_color (180, 180, 180) COLORS_primary_light (0.3 : ℚ) := by
      intro cmd hc
      simp only [draw_rounded_rect, List.mem_cons, List.not_mem_nil,
        or_false] at hc
      rcases hc with rfl | rfl | rfl | rfl | rfl | rfl <;> rfl
    have hcovB : ∃ cmd ∈ draw_rounded_rect 312 392 392 632 20
        (interpolate_color (180, 180, 180) COLORS_primary_light (0.3 : ℚ)),
        covers cmd ((352 : ℤ), (420 : ℤ)) := by
      refine ⟨DrawCmd.rect 312 (392 + 20) 392 (632 - 20)
        (interpolate_color (180, 180, 180) COLORS_primary_light (0.3 : ℚ)),
        by simp [draw_rounded_rect], ?_⟩
      simp only [covers]
      norm_num
    rw [applyCmds_not_covered (hnotE _) _, applyCmds_not_covered (hnotD _) _,
      applyCmds_not_covered hnotBar _,
      applyCmds_covered_fill hfillB hcovB _, tinted_inset_fill_value]
  refine ⟨_, rfl, hpix _, ?_⟩
  show (draw_dumbbell _ (180, 180, 180) (220, 220, 220) (352, 420)).2.2 -
    (draw_dumbbell _ (180, 180, 180) (220, 220, 220) (352, 420)).1 = 36
  rw [hpix]
  norm_num

/-- Witness for C6 at `primary = (1,2,3)`, `accent = (4,5,6)`, `i = 3`. -/
theorem draw_dumbbell_bar_segments_witness :
    (3 : ℕ) < 20 ∧
      ((dumbbellCmds (1, 2, 3) (4, 5, 6)).length = 44 ∧
        (dumbbellCmds (1, 2, 3) (4, 5, 6)).get? (12 + 3) =
          some (DrawCmd.rect (312 + 20 * ((3 : ℕ) : ℚ)) 482
            (312 + 20 * (((3 : ℕ) : ℚ) + 1) + 1) 542
            (interpolate_color (1, 2, 3) (4, 5, 6) (((3 : ℕ) : ℚ) / 19))) ∧
        (312 + 20 * (((3 : ℕ) : ℚ) + 1)) - (312 + 20 * ((3 : ℕ) : ℚ)) = 20) :=
  ⟨by decide, draw_dumbbell_bar_segments (1, 2, 3) (4, 5, 6) 3 (by decide)⟩

/-- The per-pixel gradient channel in terms of the real distance from the
center, for an arbitrary positive half-size `h`. -/
theorem gradChannel_pixel_formula (h : ℕ) (hh : 0 < h) (x y : ℕ) (a b : ℤ) :
    gradChannel h a b
        ((((x : ℤ) - (h : ℤ)) ^ 2 + ((y : ℤ) - (h : ℤ)) ^ 2).toNat) =
      ⌊(a : ℝ) + ((b : ℝ) - (a : ℝ)) *
          min (Real.sqrt (((x : ℝ) - (h : ℝ)) ^ 2 + ((y : ℝ) - (h : ℝ)) ^ 2) /
            (Real.sqrt 2 * (h : ℝ))) 1⌋ := by
  rw [gradChannel_eq_floor _ _ _ _ hh]
  have hnn : (0 : ℤ) ≤ ((x : ℤ) - (h : ℤ)) ^ 2 + ((y : ℤ) - (h : ℤ)) ^ 2 := by
    positivity
  have h1 : (((((x : ℤ) - (h : ℤ)) ^ 2 + ((y : ℤ) - (h : ℤ)) ^ 2).toNat : ℕ) : ℤ) =
      ((x : ℤ) - (h : ℤ)) ^ 2 + ((y : ℤ) - (h : ℤ)) ^ 2 :=
    Int.toNat_of_nonneg hnn
  have hd2 : (((((x : ℤ) - (h : ℤ)) ^ 2 + ((y : ℤ) - (h : ℤ)) ^ 2).toNat : ℕ) : ℝ) =
      ((x : ℝ) - (h : ℝ)) ^ 2 + ((y : ℝ) - (h : ℝ)) ^ 2 := by
    calc (((((x : ℤ) - (h : ℤ)) ^ 2 + ((y : ℤ) - (h : ℤ)) ^ 2).toNat : ℕ) : ℝ)
        = ((((((x : ℤ) - (h : ℤ)) ^ 2 + ((y : ℤ) - (h : ℤ)) ^ 2).toNat : ℕ) : ℤ) : ℝ) := by
          norm_cast
      _ = ((((x : ℤ) - (h : ℤ)) ^ 2 + ((y : ℤ) - (h : ℤ)) ^ 2 : ℤ) : ℝ) := by
          rw [h1]
      _ = ((x : ℝ) - (h : ℝ)) ^ 2 + ((y : ℝ) - (h : ℝ)) ^ 2 := by
          push_cast
          ring
  rw [hd2]

/-- **C3 (amended)** — For every size other than `1` (where the code
divides by zero, see the counterexample) and valid colors `C0`, `C1`,
`create_radial_gradient(S, C0, C1)` produces an `S × S` image whose pixel
`(x, y)` is the channel-wise floor of
`C0 + (C1 - C0) * min(dist((x,y), (S//2, S//2)) / (sqrt 2 * (S//2)), 1)` —
i.e. the linear interpolation of `C0` and `C1` at the clamped ratio; the
exact center pixel equals `C0`; every pixel at or beyond the corner
distance equals `C1`; and the ratio is monotonically non-decreasing in the
distance from the center. -/
theorem create_radial_gradient_spec (size : ℕ) (c0 c1 : Color)
    (hsz : size ≠ 1) (hv0 : validColor c0) (hv1 : validColor c1) :
    ∃ img : PImage, create_radial_gradient size c0 c1 = some img ∧
      img.size = size ∧
      (∀ x y : ℕ, x < size → y < size →
        img.pix ((x : ℤ), (y : ℤ)) =
          (⌊(c0.1 : ℝ) + ((c1.1 : ℝ) - (c0.1 : ℝ)) *
              min (Real.sqrt (((x : ℝ) - ((size / 2 : ℕ) : ℝ)) ^ 2 +
                  ((y : ℝ) - ((size / 2 : ℕ) : ℝ)) ^ 2) /
                (Real.sqrt 2 * ((size / 2 : ℕ) : ℝ))) 1⌋,
           ⌊(c0.2.1 : ℝ) + ((c1.2.1 : ℝ) - (c0.2.1 : ℝ)) *
              min (Real.sqrt (((x : ℝ) - ((size / 2 : ℕ) : ℝ)) ^ 2 +
                  ((y : ℝ) - ((size / 2 : ℕ) : ℝ)) ^ 2) /
                (Real.sqrt 2 * ((size / 2 : ℕ) : ℝ))) 1⌋,
           ⌊(c0.2.2 : ℝ) + ((c1.2.2 : ℝ) - (c0.2.2 : ℝ)) *
              min (Real.sqrt (((x : ℝ) - ((size / 2 : ℕ) : ℝ)) ^ 2 +
                  ((y : ℝ) - ((size / 2 : ℕ) : ℝ)) ^ 2) /
                (Real.sqrt 2 * ((size / 2 : ℕ) : ℝ))) 1⌋)) ∧
      (0 < size →
        img.pix (((size / 2 : ℕ) : ℤ), ((size / 2 : ℕ) : ℤ)) = c0) ∧
      (∀ x y : ℕ, x < size → y < size →
        Real.sqrt 2 * ((size / 2 : ℕ) : ℝ) ≤
            Real.sqrt (((x : ℝ) - ((size / 2 : ℕ) : ℝ)) ^ 2 +
              ((y : ℝ) - ((size / 2 : ℕ) : ℝ)) ^ 2) →
          img.pix ((x : ℤ), (y : ℤ)) = c1) ∧
      (∀ x y u v : ℕ, x < size → y < size → u < size → v < size →
        Real.sqrt (((x : ℝ) - ((size / 2 : ℕ) : ℝ)) ^ 2 +
            ((y : ℝ) - ((size / 2 : ℕ) : ℝ)) ^ 2) ≤
          Real.sqrt (((u : ℝ) - ((size / 2 : ℕ) : ℝ)) ^ 2 +
            ((v : ℝ) - ((size / 2 : ℕ) : ℝ)) ^ 2) →
        min (Real.sqrt (((x : ℝ) - ((size / 2 : ℕ) : ℝ)) ^ 2 +
              ((y : ℝ) - ((size / 2 : ℕ) : ℝ)) ^ 2) /
            (Real.sqrt 2 * ((size / 2 : ℕ) : ℝ))) 1 ≤
          min (Real.sqrt (((u : ℝ) - ((size / 2 : ℕ) : ℝ)) ^ 2 +
              ((v : ℝ) - ((size / 2 : ℕ) : ℝ)) ^ 2) /
            (Real.sqrt 2 * ((size / 2 : ℕ) : ℝ))) 1) := by
  have hformula : 2 ≤ size → ∀ (x y : ℕ) (a b : ℤ),
      gradChannel (size / 2) a b
          ((((x : ℤ) - ((size / 2 : ℕ) : ℤ)) ^ 2 +
            ((y : ℤ) - ((size / 2 : ℕ) : ℤ)) ^ 2).toNat) =
        ⌊(a : ℝ) + ((b : ℝ) - (a : ℝ)) *
            min (Real.sqrt (((x : ℝ) - ((size / 2 : ℕ) : ℝ)) ^ 2 +
                ((y : ℝ) - ((size / 2 : ℕ) : ℝ)) ^ 2) /
              (Real.sqrt 2 * ((size / 2 : ℕ) : ℝ))) 1⌋ := by
    intro hpos x y a b
    exact gradChannel_pixel_formula (size / 2) (by omega) x y a b
  unfold create_radial_gradient
  rw [if_neg hsz]
  refine ⟨_, rfl, rfl, ?_, ?_, ?_, ?_⟩
  · -- the per-pixel interpolation formula
    intro x y hx hy
    have hpos : 2 ≤ size := by omega
    show (gradChannel (size / 2) c0.1 c1.1
        ((((x : ℤ) - ((size / 2 : ℕ) : ℤ)) ^ 2 +
          ((y : ℤ) - ((size / 2 : ℕ) : ℤ)) ^ 2).toNat),
      gradChannel (size / 2) c0.2.1 c1.2.1
        ((((x : ℤ) - ((size / 2 : ℕ) : ℤ)) ^ 2 +
          ((y : ℤ) - ((size / 2 : ℕ) : ℤ)) ^ 2).toNat),
      gradChannel (size / 2) c0.2.2 c1.2.2
        ((((x : ℤ) - ((size / 2 : ℕ) : ℤ)) ^ 2 +
          ((y : ℤ) - ((size / 2 : ℕ) : ℤ)) ^ 2).toNat)) = _
    rw [hformula hpos, hformula hpos, hformula hpos]
  · -- the exact center pixel is the center color
    intro hpos0
    have hpos : 2 ≤ size := by omega
    show (gradChannel (size / 2) c0.1 c1.1 _,
      gradChannel (size / 2) c0.2.1 c1.2.1 _,
      gradChannel (size / 2) c0.2.2 c1.2.2 _) = c0
    rw [hformula hpos (size / 2) (size / 2), hformula hpos (size / 2) (size / 2),
      hformula hpos (size / 2) (size / 2)]
    have hzero : Real.sqrt ((((size / 2 : ℕ) : ℝ) - ((size / 2 : ℕ) : ℝ)) ^ 2 +
        (((size / 2 : ℕ) : ℝ) - ((size / 2 : ℕ) : ℝ)) ^ 2) = 0 := by
      simp
    rw [hzero]
    rw [zero_div, min_eq_left zero_le_one]
    rw [show (c0.1 : ℝ) + ((c1.1 : ℝ) - (c0.1 : ℝ)) * 0 = (c0.1 : ℝ) from by ring,
      show (c0.2.1 : ℝ) + ((c1.2.1 : ℝ) - (c0.2.1 : ℝ)) * 0 = (c0.2.1 : ℝ) from by ring,
      show (c0.2.2 : ℝ) + ((c1.2.2 : ℝ) - (c0.2.2 : ℝ)) * 0 = (c0.2.2 : ℝ) from by ring,
      Int.floor_intCast, Int.floor_intCast, Int.floor_intCast]
  · -- at or beyond the corner distance the pixel is the edge color
    intro x y hx hy hfar
    have hpos : 2 ≤ size := by omega
    have hhalfR : (0 : ℝ) < ((size / 2 : ℕ) : ℝ) := by
      exact_mod_cast (show 0 < size / 2 by omega)
    have hden : (0 : ℝ) < Real.sqrt 2 * ((size / 2 : ℕ) : ℝ) := by
      have h2 : (0 : ℝ) < Real.sqrt 2 := Real.sqrt_pos.mpr (by norm_num)
      positivity
    show (gradChannel (size / 2) c0.1 c1.1 _,
      gradChannel (size / 2) c0.2.1 c1.2.1 _,
      gradChannel (size / 2) c0.2.2 c1.2.2 _) = c1
    rw [hformula hpos, hformula hpos, hformula hpos]
    rw [min_eq_right ((one_le_div hden).mpr hfar)]
    rw [show (c0.1 : ℝ) + ((c1.1 : ℝ) - (c0.1 : ℝ)) * 1 = (c1.1 : ℝ) from by ring,
      show (c0.2.1 : ℝ) + ((c1.2.1 : ℝ) - (c0.2.1 : ℝ)) * 1 = (c1.2.1 : ℝ) from by ring,
      show (c0.2.2 : ℝ) + ((c1.2.2 : ℝ) - (c0.2.2 : ℝ)) * 1 = (c1.2.2 : ℝ) from by ring,
      Int.floor_intCast, Int.floor_intCast, Int.floor_intCast]
  · -- monotonicity of the clamped ratio in the distance
    intro x y u v hx hy hu hv hd
    have hden : (0 : ℝ) < Real.sqrt 2 * ((size / 2 : ℕ) : ℝ) := by
      have h2 : (0 : ℝ) < Real.sqrt 2 := Real.sqrt_pos.mpr (by norm_num)
      have hhalfR : (0 : ℝ) < ((size / 2 : ℕ) : ℝ) := by
        exact_mod_cast (show 0 < size / 2 by omega)
      positivity
    exact min_le_min (by gcongr) le_rfl

/-- Witness for C3 (amended) at `size = 4`, `C0 = (0, 10, 20)`,
`C1 = (255, 0, 7)`. -/
theorem create_radial_gradient_spec_witness :
    (4 : ℕ) ≠ 1 ∧ validColor (0, 10, 20) ∧ validColor (255, 0, 7) ∧
      (∃ img : PImage,
        create_radial_gradient 4 (0, 10, 20) (255, 0, 7) = some img ∧
        img.size = 4 ∧
        (∀ x y : ℕ, x < 4 → y < 4 →
          img.pix ((x : ℤ), (y : ℤ)) =
            (⌊(((0, 10, 20) : Color).1 : ℝ) +
                ((((255, 0, 7) : Color).1 : ℝ) - (((0, 10, 20) : Color).1 : ℝ)) *
                min (Real.sqrt (((x : ℝ) - ((4 / 2 : ℕ) : ℝ)) ^ 2 +
                    ((y : ℝ) - ((4 / 2 : ℕ) : ℝ)) ^ 2) /
                  (Real.sqrt 2 * ((4 / 2 : ℕ) : ℝ))) 1⌋,
             ⌊(((0, 10, 20) : Color).2.1 : ℝ) +
                ((((255, 0, 7) : Color).2.1 : ℝ) - (((0, 10, 20) : Color).2.1 : ℝ)) *
                min (Real.sqrt (((x : ℝ) - ((4 / 2 : ℕ) : ℝ)) ^ 2 +
                    ((y : ℝ) - ((4 / 2 : ℕ) : ℝ)) ^ 2) /
                  (Real.sqrt 2 * ((4 / 2 : ℕ) : ℝ))) 1⌋,
             ⌊(((0, 10, 20) : Color).2.2 : ℝ) +
                ((((255, 0, 7) : Color).2.2 : ℝ) - (((0, 10, 20) : Color).2.2 : ℝ)) *
                min (Real.sqrt (((x : ℝ) - ((4 / 2 : ℕ) : ℝ)) ^ 2 +
                    ((y : ℝ) - ((4 / 2 : ℕ) : ℝ)) ^ 2) /
                  (Real.sqrt 2 * ((4 / 2 : ℕ) : ℝ))) 1⌋)) ∧
        (0 < 4 →
          img.pix (((4 / 2 : ℕ) : ℤ), ((4 / 2 : ℕ) : ℤ)) = (0, 10, 20)) ∧
        (∀ x y : ℕ, x < 4 → y < 4 →
          Real.sqrt 2 * ((4 / 2 : ℕ) : ℝ) ≤
              Real.sqrt (((x : ℝ) - ((4 / 2 : ℕ) : ℝ)) ^ 2 +
                ((y : ℝ) - ((4 / 2 : ℕ) : ℝ)) ^ 2) →
            img.pix ((x : ℤ), (y : ℤ)) = (255, 0, 7)) ∧
        (∀ x y u v : ℕ, x < 4 → y < 4 → u < 4 → v < 4 →
          Real.sqrt (((x : ℝ) - ((4 / 2 : ℕ) : ℝ)) ^ 2 +
              ((y : ℝ) - ((4 / 2 : ℕ) : ℝ)) ^ 2) ≤
            Real.sqrt (((u : ℝ) - ((4 / 2 : ℕ) : ℝ)) ^ 2 +
              ((v : ℝ) - ((4 / 2 : ℕ) : ℝ)) ^ 2) →
          min (Real.sqrt (((x : ℝ) - ((4 / 2 : ℕ) : ℝ)) ^ 2 +
                ((y : ℝ) - ((4 / 2 : ℕ) : ℝ)) ^ 2) /
              (Real.sqrt 2 * ((4 / 2 : ℕ) : ℝ))) 1 ≤
            min (Real.sqrt (((u : ℝ) - ((4 / 2 : ℕ) : ℝ)) ^ 2 +
                ((v : ℝ) - ((4 / 2 : ℕ) : ℝ)) ^ 2) /
              (Real.sqrt 2 * ((4 / 2 : ℕ) : ℝ))) 1)) :=
  ⟨by decide, by decide, by decide,
    create_radial_gradient_spec 4 (0, 10, 20) (255, 0, 7)
      (by decide) (by decide) (by decide)⟩
